import Mathlib

/-!
Formal model of the signal-analysis engine of the artificial-vision-notes
repository: the sampling simulator (`samplingCalculator`) and the entropy
estimator (`entropyCalculator`).  Real-valued sample data is modelled with
exact rationals; the transcendental parts (`sin`, `log2`, `sinc`) are
modelled over the real numbers.
-/

/-- Classification of a sampling rate against the Nyquist rate, the three
`status` values returned by `getSamplingStatus` (the spec calls the middle
one `at-Nyquist`; the code spells it `nyquist`). -/
inductive SamplingStatus
  | adequate
  | nyquist
  | insufficient
  deriving DecidableEq, Repr

/-- `SIGNAL_CONFIG.nyquistRate` (2 * fMax with fMax = 250 Hz). -/
def nyquistRate : ℚ := 500

/-- `getSamplingStatus(fs)` from `samplingCalculator`: `adequate` when
`fs > nyquistRate`, otherwise `nyquist` when `|fs - nyquistRate| < 1`,
otherwise `insufficient`.  The `color` and `message` fields of the source
record are opaque presentation strings and are not modelled. -/
def getSamplingStatus (fs : ℚ) : SamplingStatus :=
  if fs > nyquistRate then SamplingStatus.adequate
  else if |fs - nyquistRate| < 1 then SamplingStatus.nyquist
  else SamplingStatus.insufficient

/-- The classification as the spec words it: `insufficient` if
`fs < nyquistRate - 1`, `at-Nyquist` if `|fs - nyquistRate| < 1`, else
`adequate`.  Written from the words of the spec, to be compared with
`getSamplingStatus`, which is written from the source. -/
def specSamplingStatus (fs : ℚ) : SamplingStatus :=
  if fs < nyquistRate - 1 then SamplingStatus.insufficient
  else if |fs - nyquistRate| < 1 then SamplingStatus.nyquist
  else SamplingStatus.adequate

/-- `generateSampleTimePoints(start, end, fs)`: closed form of the source
loop `t = start; while (t <= end + Ts/2) { push t; t += Ts }` with
`Ts = 1/fs`.  For `0 < fs` the loop pushes `start + k*Ts` for
`k = 0, 1, ...` while `start + k*Ts <= end + Ts/2`, i.e. exactly
`(⌊(end + Ts/2 - start)/Ts⌋ + 1).toNat` points.  `none` marks the inputs
on which the source loop does not terminate: `fs = 0` gives an infinite
step (`Ts` is IEEE infinity), and `fs < 0` gives a negative step, so the
loop runs forever unless the bound already excludes `start`, in which case
it returns the empty array.  The source performs no rate validation and
never throws. -/
def generateSampleTimePoints (start stop fs : ℚ) : Option (List ℚ) :=
  if 0 < fs then
    some ((List.range (⌊(stop + (1 / fs) / 2 - start) / (1 / fs)⌋ + 1).toNat).map
      fun k => start + k * (1 / fs))
  else if fs < 0 ∧ stop + (1 / fs) / 2 < start then
    some []
  else
    none

/-- `sinc(x)` from `samplingCalculator`: `1` when `|x| < 1e-10`, otherwise
`sin(πx)/(πx)`. -/
noncomputable def sinc (x : ℝ) : ℝ :=
  if |x| < 1 / 10 ^ 10 then 1 else Real.sin (Real.pi * x) / (Real.pi * x)

/-- C6: the three example classifications of the spec hold on the code:
`getSamplingStatus 500` is `at-Nyquist` (code status `nyquist`),
`getSamplingStatus 600` is `adequate`, and `getSamplingStatus 300` is
`insufficient`. -/
theorem getSamplingStatus_examples :
    getSamplingStatus 500 = SamplingStatus.nyquist ∧
    getSamplingStatus 600 = SamplingStatus.adequate ∧
    getSamplingStatus 300 = SamplingStatus.insufficient := by
  refine ⟨?_, ?_, ?_⟩
  · unfold getSamplingStatus nyquistRate
    rw [if_neg (by norm_num), if_pos (by rw [abs_lt]; constructor <;> norm_num)]
  · unfold getSamplingStatus nyquistRate
    rw [if_pos (by norm_num)]
  · unfold getSamplingStatus nyquistRate
    rw [if_neg (by norm_num), if_neg (by rw [abs_lt]; rintro ⟨ha, hb⟩; linarith)]

/-- C2 counterexample: at `fs = 499` the code returns `insufficient`, while
the classification claimed by the spec (`insufficient` only when
`fs < 499`, `at-Nyquist` when `|fs - 500| < 1`, else `adequate`) returns
`adequate`. -/
theorem getSamplingStatus_ne_spec_at_499 :
    getSamplingStatus 499 = SamplingStatus.insufficient ∧
    specSamplingStatus 499 = SamplingStatus.adequate := by
  constructor
  · unfold getSamplingStatus nyquistRate
    rw [if_neg (by norm_num), if_neg (by rw [abs_lt]; rintro ⟨ha, hb⟩; linarith)]
  · unfold specSamplingStatus nyquistRate
    rw [if_neg (by norm_num), if_neg (by rw [abs_lt]; rintro ⟨ha, hb⟩; linarith)]

/-- C2 amended: `getSamplingStatus` is pure and total, and classifies as
`insufficient` exactly when `fs ≤ nyquistRate - 1`, as `at-Nyquist`
(code status `nyquist`) exactly when `nyquistRate - 1 < fs ≤ nyquistRate`,
and as `adequate` exactly when `fs > nyquistRate`. -/
theorem getSamplingStatus_characterization (fs : ℚ) :
    (getSamplingStatus fs = SamplingStatus.insufficient ↔ fs ≤ nyquistRate - 1) ∧
    (getSamplingStatus fs = SamplingStatus.nyquist ↔
      nyquistRate - 1 < fs ∧ fs ≤ nyquistRate) ∧
    (getSamplingStatus fs = SamplingStatus.adequate ↔ nyquistRate < fs) := by
  have habs : |fs - nyquistRate| < 1 ↔ nyquistRate - 1 < fs ∧ fs < nyquistRate + 1 := by
    rw [abs_lt]
    constructor <;> rintro ⟨ha, hb⟩ <;> exact ⟨by linarith, by linarith⟩
  unfold getSamplingStatus
  split_ifs with h1 h2
  · refine ⟨⟨fun hs => ?_, fun hb => ?_⟩, ⟨fun hs => ?_, fun hb => ?_⟩,
      ⟨fun _ => h1, fun _ => rfl⟩⟩
    · exact hs.elim
    · exfalso; linarith
    · exact hs.elim
    · exfalso; linarith [hb.2]
  · rw [habs] at h2
    refine ⟨⟨fun hs => ?_, fun hb => ?_⟩, ⟨fun _ => ⟨h2.1, not_lt.mp h1⟩, fun _ => rfl⟩,
      ⟨fun hs => ?_, fun hb => ?_⟩⟩
    · exact hs.elim
    · exfalso; linarith [h2.1]
    · exact hs.elim
    · exact absurd hb h1
  · rw [habs] at h2
    push_neg at h1 h2
    have hle : fs ≤ nyquistRate - 1 := by
      rcases le_or_lt fs (nyquistRate - 1) with h | h
      · exact h
      · exfalso; have := h2 h; linarith
    refine ⟨⟨fun _ => hle, fun _ => rfl⟩, ⟨fun hs => ?_, fun hb => ?_⟩,
      ⟨fun hs => ?_, fun hb => ?_⟩⟩
    · exact hs.elim
    · exfalso; linarith [hb.1]
    · exact hs.elim
    · exfalso; linarith

/-- C1 counterexample: `sample(0, 0.01, -5)` does not fail with an
invalid-rate error (the source performs no `fs <= 0` validation): the loop
bound `end + Ts/2 = 1/100 - 1/10` is below `start = 0`, so the loop body
never runs and the call returns the empty list normally. -/
theorem generateSampleTimePoints_neg_rate_returns_nil :
    generateSampleTimePoints 0 (1 / 100) (-5) = some [] := by
  unfold generateSampleTimePoints
  rw [if_neg (by norm_num), if_pos (by constructor <;> norm_num)]

/-- C1 amended: `generateSampleTimePoints` performs no rate validation and
never fails with an `InvalidRateError`.  For every `fs > 0` the call is
accepted and returns a sample-time list; for `fs ≤ 0` it either returns
the empty list normally (when the loop bound excludes `start`, as happens
at `sample(0, 0.01, -5)`) or fails to terminate — in no case does it
raise an invalid-rate error. -/
theorem generateSampleTimePoints_no_error (start stop fs : ℚ) :
    (0 < fs → ∃ l, generateSampleTimePoints start stop fs = some l) ∧
    (fs ≤ 0 → generateSampleTimePoints start stop fs = some [] ∨
      generateSampleTimePoints start stop fs = none) := by
  constructor
  · intro h
    exact ⟨_, by unfold generateSampleTimePoints; rw [if_pos h]⟩
  · intro h
    unfold generateSampleTimePoints
    rw [if_neg (not_lt.mpr h)]
    split_ifs
    · exact Or.inl rfl
    · exact Or.inr rfl

/-- Witness for the amended C1 theorem at the concrete rate `fs = 2000`. -/
theorem generateSampleTimePoints_no_error_witness :
    ∃ l, generateSampleTimePoints 0 (1 / 100) 2000 = some l :=
  (generateSampleTimePoints_no_error 0 (1 / 100) 2000).1 (by norm_num)

/-- C8 counterexample: at `x = 5e-11` (nonzero and not an integer) the code
returns `sinc x = 1`, but `sin(πx)/(πx) < 1`, so `sinc` does not equal
`sin(πx)/(πx)` everywhere away from `0`: the source returns `1` on the
whole band `|x| < 1e-10`. -/
theorem sinc_ne_sin_div_near_zero :
    sinc (1 / (2 * 10 ^ 10)) = 1 ∧
    sinc (1 / (2 * 10 ^ 10)) ≠
      Real.sin (Real.pi * (1 / (2 * 10 ^ 10))) / (Real.pi * (1 / (2 * 10 ^ 10))) := by
  have hx : (0 : ℝ) < 1 / (2 * 10 ^ 10) := by norm_num
  have hy : (0 : ℝ) < Real.pi * (1 / (2 * 10 ^ 10)) := mul_pos Real.pi_pos hx
  have hone : sinc (1 / (2 * 10 ^ 10)) = 1 := by
    unfold sinc
    rw [if_pos (by rw [abs_of_pos hx]; norm_num)]
  have hlt : Real.sin (Real.pi * (1 / (2 * 10 ^ 10))) / (Real.pi * (1 / (2 * 10 ^ 10))) < 1 := by
    rw [div_lt_one hy]
    exact Real.sin_lt hy
  exact ⟨hone, by rw [hone]; exact fun hcontra => absurd hcontra.symm (ne_of_lt hlt)⟩

/-- C8 amended: `sinc 0 = 1`; for every nonzero integer `n`, `sinc n = 0`
exactly (the model is exact real arithmetic, so the value is `0`, well
within any floating tolerance); and `sinc x = sin(πx)/(πx)` for every `x`
with `|x| ≥ 1e-10` — not for every nonzero `x`, since the source returns
`1` on the whole band `|x| < 1e-10`. -/
theorem sinc_spec :
    sinc 0 = 1 ∧
    (∀ n : ℤ, n ≠ 0 → sinc (n : ℝ) = 0) ∧
    (∀ x : ℝ, 1 / 10 ^ 10 ≤ |x| →
      sinc x = Real.sin (Real.pi * x) / (Real.pi * x)) := by
  refine ⟨?_, fun n hn => ?_, fun x hx => ?_⟩
  · unfold sinc
    rw [if_pos (by rw [abs_zero]; norm_num)]
  · have h1 : (1 : ℝ) ≤ |(n : ℝ)| := by
      rw [← Int.cast_abs]
      exact_mod_cast Int.one_le_abs hn
    unfold sinc
    rw [if_neg (not_lt.mpr (le_trans (by norm_num) h1))]
    rw [mul_comm Real.pi (n : ℝ), Real.sin_int_mul_pi, zero_div]
  · unfold sinc
    rw [if_neg (not_lt.mpr hx)]

/-- Witness for the amended C8 theorem: `sinc 1 = 0` at the nonzero
integer `n = 1`. -/
theorem sinc_spec_witness : sinc ((1 : ℤ) : ℝ) = 0 :=
  sinc_spec.2.1 1 (by norm_num)

/-- `SignalPoint` from `entropyCalculator`: an (index, value) pair. -/
structure SignalPoint where
  index : ℕ
  value : ℚ
  deriving DecidableEq, Repr

/-- One record of the `stepByStep` derivation trace returned by
`calculateEntropy`.  The `description` and `detailedExplanation` fields of
the source are opaque presentation strings, not consumed computationally
(per the data model of the spec); the model keeps the step id and the
numeric `value` payload. -/
structure DerivationStep where
  step : String
  value : ℝ

/-- The result record of `calculateEntropy`. -/
structure EntropyResult where
  entropy : ℝ
  probabilities : List ℚ
  stepByStep : List DerivationStep

/-- `discretizeSignal(signal, numBins)`: each value is mapped to
`floor((value - lo) / binWidth)` with `lo = -2`, `hi = 2`,
`binWidth = (hi - lo)/numBins`, clamped into `[0, numBins - 1]`.  The
source names the range bounds `min` and `max`; they are renamed `lo` and
`hi` here because `min`/`max` are the clamp operators. -/
def discretizeSignal (signal : List SignalPoint) (numBins : ℕ) : List ℤ :=
  let lo : ℚ := -2
  let hi : ℚ := 2
  let binWidth : ℚ := (hi - lo) / numBins
  signal.map fun point =>
    max 0 (min ((numBins : ℤ) - 1) ⌊(point.value - lo) / binWidth⌋)

/-- The histogram: entry `i` is the number of discretized samples equal to
`i` (the source allocates `counts = Array(numBins).fill(0)` and runs
`counts[bin]++` over the discretized values). -/
def binCounts (signal : List SignalPoint) (numBins : ℕ) : List ℕ :=
  (List.range numBins).map fun (i : ℕ) =>
    (discretizeSignal signal numBins).count ((i : ℤ))

/-- `calculateJointProbability(signal, numBins)`: histogram counts
normalized by `total = signal.length`. -/
def calculateJointProbability (signal : List SignalPoint) (numBins : ℕ) : List ℚ :=
  (binCounts signal numBins).map fun (count : ℕ) => (count : ℚ) / (signal.length : ℚ)

/-- The entropy accumulation loop of `calculateEntropy`: every probability
`p > 0` contributes `-(p * log2 p)`; zero-probability bins are skipped
(contribute nothing). -/
noncomputable def entropySum (probabilities : List ℚ) : ℝ :=
  (probabilities.map fun (p : ℚ) =>
    if 0 < p then -((p : ℝ) * Real.logb 2 (p : ℝ)) else 0).sum

/-- `calculateEntropy(signal)` from `entropyCalculator`: empty input is the
defined degenerate case `{0, [], []}`; otherwise the signal is discretized
into 20 bins, normalized, and folded through the Shannon formula, the
result clamped to be non-negative.  The four derivation steps carry the
same numeric payloads as the source (`N`, the number of non-empty bins,
and the unclamped entropy twice). -/
noncomputable def calculateEntropy (signal : List SignalPoint) : EntropyResult :=
  if signal.length = 0 then
    ⟨0, [], []⟩
  else
    let numBins : ℕ := 20
    let probabilities := calculateJointProbability signal numBins
    let entropy := entropySum probabilities
    ⟨max 0 entropy, probabilities,
      [⟨"1", (signal.length : ℝ)⟩,
       ⟨"2", ((probabilities.filter fun p => decide (0 < p)).length : ℝ)⟩,
       ⟨"3", entropy⟩,
       ⟨"4", entropy⟩]⟩

/-- Sum of a function mapped over `List.range` as a `Finset` sum. -/
theorem listRange_map_sum {M : Type} [AddCommMonoid M] (n : ℕ) (f : ℕ → M) :
    ((List.range n).map f).sum = ∑ i ∈ Finset.range n, f i := by
  induction n with
  | zero => simp
  | succ k ih =>
    rw [List.range_succ, List.map_append, List.sum_append, Finset.sum_range_succ, ih]
    simp

/-- A list of integers that all lie in `[0, n)` has as many elements as the
total of its per-value occurrence counts over `0, ..., n - 1`. -/
theorem count_range_sum (n : ℕ) (l : List ℤ) (h : ∀ x ∈ l, 0 ≤ x ∧ x < (n : ℤ)) :
    ((List.range n).map fun (i : ℕ) => l.count ((i : ℤ))).sum = l.length := by
  rw [listRange_map_sum]
  revert h
  induction l with
  | nil => intro _; simp
  | cons a t ih =>
    intro h
    have ha := h a (List.mem_cons_self a t)
    have ht : ∀ x ∈ t, 0 ≤ x ∧ x < (n : ℤ) :=
      fun x hx => h x (List.mem_cons_of_mem a hx)
    have hm : ((a.toNat : ℤ)) = a := Int.toNat_of_nonneg ha.1
    have hmem : a.toNat ∈ Finset.range n := Finset.mem_range.mpr (by omega)
    have hiff : ∀ i : ℕ, ((i : ℤ) = a) ↔ (i = a.toNat) := by
      intro i
      omega
    calc (∑ i ∈ Finset.range n, (a :: t).count (i : ℤ))
        = ∑ i ∈ Finset.range n,
            (t.count (i : ℤ) + if (i : ℤ) = a then 1 else 0) := by
          refine Finset.sum_congr rfl fun i _ => ?_
          by_cases hia : (i : ℤ) = a <;> simp [List.count_cons, hia]
      _ = (∑ i ∈ Finset.range n, t.count (i : ℤ)) +
            ∑ i ∈ Finset.range n, (if (i : ℤ) = a then 1 else 0) :=
          Finset.sum_add_distrib
      _ = t.length + 1 := by
          rw [ih ht]
          congr 1
          simp only [hiff]
          rw [Finset.sum_ite_eq' (Finset.range n) a.toNat fun _ => 1, if_pos hmem]
      _ = (a :: t).length := by simp

/-- Every discretized sample lands in a bin index inside `[0, numBins)`:
the clamp-not-drop policy of the source. -/
theorem discretizeSignal_mem (signal : List SignalPoint) (numBins : ℕ)
    (h : 1 ≤ numBins) :
    ∀ x ∈ discretizeSignal signal numBins, 0 ≤ x ∧ x < (numBins : ℤ) := by
  intro x hx
  unfold discretizeSignal at hx
  simp only [List.mem_map] at hx
  obtain ⟨p, _, rfl⟩ := hx
  refine ⟨le_max_left 0 _, ?_⟩
  refine max_lt (by omega) (lt_of_le_of_lt (min_le_left _ _) (by omega))

/-- The histogram counts of any signal total exactly the signal length:
every sample contributes to exactly one bin. -/
theorem binCounts_sum (signal : List SignalPoint) (numBins : ℕ)
    (h : 1 ≤ numBins) :
    (binCounts signal numBins).sum = signal.length := by
  unfold binCounts
  rw [count_range_sum numBins _ (discretizeSignal_mem signal numBins h)]
  unfold discretizeSignal
  simp

/-- Dividing every entry of a list of naturals by a fixed rational divides
the sum. -/
theorem natList_sum_div (l : List ℕ) (d : ℚ) :
    (l.map fun (c : ℕ) => (c : ℚ) / d).sum = (l.sum : ℚ) / d := by
  induction l with
  | nil => simp
  | cons a t ih => simp only [List.map_cons, List.sum_cons, ih, Nat.cast_add, add_div]

/-- The normalized histogram of a non-empty signal sums to exactly `1`. -/
theorem calculateJointProbability_sum (signal : List SignalPoint) (numBins : ℕ)
    (h1 : 1 ≤ numBins) (h2 : signal.length ≠ 0) :
    (calculateJointProbability signal numBins).sum = 1 := by
  unfold calculateJointProbability
  rw [natList_sum_div, binCounts_sum signal numBins h1]
  exact div_self (by exact_mod_cast h2)

/-- The `probabilities` field of `calculateEntropy` on a non-empty signal. -/
theorem calculateEntropy_probabilities (signal : List SignalPoint)
    (h : signal.length ≠ 0) :
    (calculateEntropy signal).probabilities = calculateJointProbability signal 20 := by
  unfold calculateEntropy
  rw [if_neg h]

/-- The `entropy` field of `calculateEntropy` on a non-empty signal. -/
theorem calculateEntropy_entropy (signal : List SignalPoint)
    (h : signal.length ≠ 0) :
    (calculateEntropy signal).entropy =
      max 0 (entropySum (calculateJointProbability signal 20)) := by
  unfold calculateEntropy
  rw [if_neg h]

/-- C3: for every non-empty signal the probability array returned by
`calculateEntropy` sums to exactly `1` (exact rational arithmetic, hence
in particular within the 1e-9 tolerance of the spec), and the returned
entropy is non-negative. -/
theorem calculateEntropy_sum_one_nonneg (signal : List SignalPoint)
    (h : signal ≠ []) :
    (calculateEntropy signal).probabilities.sum = 1 ∧
    0 ≤ (calculateEntropy signal).entropy := by
  have hlen : signal.length ≠ 0 := fun hl => h (List.length_eq_zero.mp hl)
  constructor
  · rw [calculateEntropy_probabilities signal hlen]
    exact calculateJointProbability_sum signal 20 (by norm_num) hlen
  · rw [calculateEntropy_entropy signal hlen]
    exact le_max_left 0 _

/-- Witness for C3 at the one-point signal `[(1, 0)]`. -/
theorem calculateEntropy_sum_one_nonneg_witness :
    (calculateEntropy [⟨1, 0⟩]).probabilities.sum = 1 ∧
    0 ≤ (calculateEntropy [⟨1, 0⟩]).entropy :=
  calculateEntropy_sum_one_nonneg [⟨1, 0⟩] (by simp)

/-- C4: `calculateEntropy` on the empty signal returns entropy `0`, an
empty probability array and an empty step list; the function is total, so
the degenerate case is a returned value, not an error. -/
theorem calculateEntropy_nil : calculateEntropy [] = ⟨0, [], []⟩ := rfl

/-- C5: each sample value `v` is assigned bin `⌊(v - lo)/binWidth⌋` with
`lo = -2`, `binWidth = (hi - lo)/numBins = 4/numBins`, clamped into
`[0, numBins - 1]`; consequently the histogram counts sum to the signal
length: every sample contributes to exactly one bin. -/
theorem discretize_formula_and_counts (signal : List SignalPoint) (numBins : ℕ)
    (h : 1 ≤ numBins) :
    discretizeSignal signal numBins =
      signal.map (fun point =>
        max 0 (min ((numBins : ℤ) - 1)
          ⌊(point.value - (-2)) / ((2 - (-2)) / (numBins : ℚ))⌋)) ∧
    (binCounts signal numBins).sum = signal.length :=
  ⟨rfl, binCounts_sum signal numBins h⟩

/-- Witness for C5 with the implementation bin count `numBins = 20` at a
concrete one-point signal. -/
theorem discretize_formula_and_counts_witness :
    discretizeSignal [⟨1, 0⟩] 20 =
      [(⟨1, 0⟩ : SignalPoint)].map (fun point =>
        max 0 (min ((20 : ℤ) - 1)
          ⌊(point.value - (-2)) / ((2 - (-2)) / (20 : ℚ))⌋)) ∧
    (binCounts [⟨1, 0⟩] 20).sum = 1 :=
  discretize_formula_and_counts [⟨1, 0⟩] 20 (by norm_num)

/-- One term of the entropy loop, rewritten through `Real.negMulLog`. -/
theorem entropyTerm_eq (p : ℚ) (hp : 0 ≤ p) :
    (if 0 < p then -((p : ℝ) * Real.logb 2 (p : ℝ)) else 0) =
      Real.negMulLog (p : ℝ) / Real.log 2 := by
  rcases eq_or_lt_of_le hp with h | h
  · rw [if_neg (by rw [← h]; exact lt_irrefl 0), ← h]
    simp [Real.negMulLog]
  · rw [if_pos h]
    simp only [Real.negMulLog, Real.logb]
    ring

/-- Jensen / concavity bound: nonnegative reals summing to `1` over
`range n` have `negMulLog` sum at most `log n`. -/
theorem sum_negMulLog_le_log (n : ℕ) (hn : 0 < n) (p : ℕ → ℝ)
    (hp : ∀ i ∈ Finset.range n, 0 ≤ p i)
    (hsum : ∑ i ∈ Finset.range n, p i = 1) :
    ∑ i ∈ Finset.range n, Real.negMulLog (p i) ≤ Real.log (n : ℝ) := by
  have hne : ((n : ℝ)) ≠ 0 := Nat.cast_ne_zero.mpr hn.ne'
  have hw : ∀ i ∈ Finset.range n, (0 : ℝ) ≤ (fun (_ : ℕ) => ((n : ℝ))⁻¹) i :=
    fun i _ => by positivity
  have hwsum : ∑ i ∈ Finset.range n, (fun (_ : ℕ) => ((n : ℝ))⁻¹) i = 1 := by
    rw [Finset.sum_const, Finset.card_range, nsmul_eq_mul]
    exact mul_inv_cancel₀ hne
  have hmem : ∀ i ∈ Finset.range n, p i ∈ Set.Ici (0 : ℝ) :=
    fun i hi => Set.mem_Ici.mpr (hp i hi)
  have hjensen :
      (∑ i ∈ Finset.range n, (fun (_ : ℕ) => ((n : ℝ))⁻¹) i • Real.negMulLog (p i)) ≤
        Real.negMulLog (∑ i ∈ Finset.range n, (fun (_ : ℕ) => ((n : ℝ))⁻¹) i • p i) :=
    Real.concaveOn_negMulLog.le_map_sum hw hwsum hmem
  simp only [smul_eq_mul] at hjensen
  rw [← Finset.mul_sum, ← Finset.mul_sum, hsum, mul_one] at hjensen
  rw [Real.negMulLog, Real.log_inv] at hjensen
  have hrw : -((n : ℝ))⁻¹ * -Real.log (n : ℝ) = ((n : ℝ))⁻¹ * Real.log (n : ℝ) := by
    ring
  rw [hrw] at hjensen
  have hinv : (0 : ℝ) < ((n : ℝ))⁻¹ := by
    rw [inv_pos]
    exact_mod_cast hn
  exact (mul_le_mul_left hinv).mp hjensen

/-- Probability assigned to bin `i` by the 20-bin analysis (proof
abbreviation). -/
def binProb (signal : List SignalPoint) (i : ℕ) : ℚ :=
  ((discretizeSignal signal 20).count ((i : ℤ)) : ℚ) / (signal.length : ℚ)

/-- The probability list is `binProb` mapped over the bin indices. -/
theorem calculateJointProbability_eq_map (signal : List SignalPoint) :
    calculateJointProbability signal 20 = (List.range 20).map (binProb signal) := by
  unfold calculateJointProbability binCounts binProb
  rw [List.map_map]
  rfl

/-- Each bin probability is nonnegative. -/
theorem binProb_nonneg (signal : List SignalPoint) (i : ℕ) :
    0 ≤ binProb signal i := by
  unfold binProb
  positivity

/-- The Shannon sum of the 20-bin normalized histogram of a non-empty
signal is at most `log2 20`. -/
theorem entropySum_le_logb (signal : List SignalPoint) (h : signal.length ≠ 0) :
    entropySum (calculateJointProbability signal 20) ≤ Real.logb 2 20 := by
  have hlog2 : (0 : ℝ) < Real.log 2 := Real.log_pos (by norm_num)
  have hsumq : ∑ i ∈ Finset.range 20, ((binProb signal i : ℚ) : ℝ) = 1 := by
    have h2 : ∑ i ∈ Finset.range 20, binProb signal i = (1 : ℚ) := by
      rw [← listRange_map_sum 20 (binProb signal), ← calculateJointProbability_eq_map]
      exact calculateJointProbability_sum signal 20 (by norm_num) h
    exact_mod_cast h2
  have hbound := sum_negMulLog_le_log 20 (by norm_num)
    (fun i => ((binProb signal i : ℚ) : ℝ))
    (fun i _ => by
      show (0 : ℝ) ≤ ((binProb signal i : ℚ) : ℝ)
      exact_mod_cast binProb_nonneg signal i) hsumq
  have hbound2 : ∑ i ∈ Finset.range 20,
      Real.negMulLog ((binProb signal i : ℚ) : ℝ) ≤ Real.log 20 := by
    calc ∑ i ∈ Finset.range 20, Real.negMulLog ((binProb signal i : ℚ) : ℝ)
        ≤ Real.log ((20 : ℕ) : ℝ) := hbound
      _ = Real.log 20 := by norm_num
  have hES : entropySum (calculateJointProbability signal 20) =
      (∑ i ∈ Finset.range 20, Real.negMulLog ((binProb signal i : ℚ) : ℝ)) /
        Real.log 2 := by
    unfold entropySum
    rw [calculateJointProbability_eq_map, List.map_map, listRange_map_sum]
    simp only [Function.comp]
    rw [Finset.sum_congr rfl
      (fun i _ => entropyTerm_eq (binProb signal i) (binProb_nonneg signal i)),
      ← Finset.sum_div]
  rw [hES, Real.logb]
  exact (div_le_div_iff_of_pos_right hlog2).mpr hbound2

/-- C10: for every signal, the entropy returned by `calculateEntropy` is at
most `log2 20`, the maximum Shannon entropy of a distribution over the 20
histogram bins. -/
theorem calculateEntropy_le_log_numBins (signal : List SignalPoint) :
    (calculateEntropy signal).entropy ≤ Real.logb 2 20 := by
  have hlogpos : (0 : ℝ) ≤ Real.logb 2 20 :=
    Real.logb_nonneg (by norm_num) (by norm_num)
  by_cases h : signal.length = 0
  · unfold calculateEntropy
    rw [if_pos h]
    exact hlogpos
  · rw [calculateEntropy_entropy signal h]
    exact max_le hlogpos (entropySum_le_logb signal h)

/-- C7: for every signal whose 20-bin histogram is uniform — every one of
the 20 bins holds the same positive count `c` — the entropy returned by
`calculateEntropy` equals `log2 20` exactly (the model computes in exact
arithmetic, so the floating tolerance of the spec is met with equality). -/
theorem calculateEntropy_uniform (signal : List SignalPoint) (c : ℕ)
    (hc : binCounts signal 20 = List.replicate 20 c) (hcpos : 0 < c) :
    (calculateEntropy signal).entropy = Real.logb 2 20 := by
  have hsum := binCounts_sum signal 20 (by norm_num)
  rw [hc] at hsum
  have hlen : signal.length = 20 * c := by
    rw [← hsum, List.sum_replicate, smul_eq_mul]
  have hne : signal.length ≠ 0 := by
    rw [hlen]
    exact Nat.mul_ne_zero (by norm_num) hcpos.ne'
  have hprobs : calculateJointProbability signal 20 =
      List.replicate 20 ((1 : ℚ) / 20) := by
    have hc0 : ((c : ℚ)) ≠ 0 := Nat.cast_ne_zero.mpr hcpos.ne'
    have hval : ((c : ℚ)) / ((signal.length : ℕ) : ℚ) = 1 / 20 := by
      rw [hlen]
      push_cast
      field_simp
      ring
    unfold calculateJointProbability
    rw [hc, List.map_replicate, hval]
  have hES : entropySum (List.replicate 20 ((1 : ℚ) / 20)) = Real.logb 2 20 := by
    unfold entropySum
    rw [List.map_replicate, List.sum_replicate,
      if_pos (by norm_num : (0 : ℚ) < 1 / 20)]
    have hcast : (((1 : ℚ) / 20 : ℚ) : ℝ) = ((20 : ℝ))⁻¹ := by norm_num
    rw [hcast, nsmul_eq_mul, Real.logb_inv]
    push_cast
    have hfold : (20 : ℝ) * -((20 : ℝ)⁻¹ * -Real.logb 2 20) =
        ((20 : ℝ) * (20 : ℝ)⁻¹) * Real.logb 2 20 := by ring
    rw [hfold, mul_inv_cancel₀ (by norm_num : (20 : ℝ) ≠ 0), one_mul]
  rw [calculateEntropy_entropy signal hne, hprobs, hES]
  exact max_eq_right (Real.logb_nonneg (by norm_num) (by norm_num))

/-- A 20-point signal hitting each of the 20 bins exactly once: point `k`
carries the value `-2 + k/5`, which discretizes to bin `k`. -/
def uniformSignal : List SignalPoint :=
  (List.range 20).map fun (k : ℕ) => ⟨k + 1, -2 + (k : ℚ) / 5⟩

/-- The uniform signal discretizes to the bin list `[0, 1, ..., 19]`. -/
theorem uniformSignal_discretize :
    discretizeSignal uniformSignal 20 =
      (List.range 20).map fun (k : ℕ) => ((k : ℤ)) := by
  unfold uniformSignal discretizeSignal
  rw [List.map_map]
  refine List.map_congr_left fun k hk => ?_
  have hk20 : k < 20 := List.mem_range.mp hk
  show max 0 (min ((20 : ℤ) - 1)
    ⌊((-2 + (k : ℚ) / 5) - (-2)) / ((2 - (-2)) / ((20 : ℕ) : ℚ))⌋) = (k : ℤ)
  have harg : ((-2 + (k : ℚ) / 5) - (-2)) / ((2 - (-2)) / ((20 : ℕ) : ℚ)) = (k : ℚ) := by
    push_cast
    field_simp
    ring
  rw [harg, Int.floor_natCast, min_eq_right (by omega), max_eq_right (by omega)]

/-- The uniform signal fills every bin exactly once. -/
theorem uniformSignal_binCounts :
    binCounts uniformSignal 20 = List.replicate 20 1 := by
  unfold binCounts
  rw [uniformSignal_discretize]
  have hcount : ∀ i ∈ List.range 20,
      (((List.range 20).map fun (k : ℕ) => ((k : ℤ))).count ((i : ℤ))) = 1 := by
    intro i hi
    rw [List.count_map_of_injective _ _ (fun a b hab => by exact_mod_cast hab)]
    exact List.count_eq_one_of_mem (List.nodup_range 20) hi
  rw [List.map_congr_left hcount]
  rw [List.eq_replicate_iff]
  constructor
  · simp
  · intro b hb
    simp only [List.mem_map] at hb
    obtain ⟨x, _, hxb⟩ := hb
    exact hxb.symm

/-- Witness for C7: the 20-point uniform signal `uniformSignal` has
histogram `replicate 20 1` and entropy exactly `log2 20`. -/
theorem calculateEntropy_uniform_witness :
    (calculateEntropy uniformSignal).entropy = Real.logb 2 20 :=
  calculateEntropy_uniform uniformSignal 1 uniformSignal_binCounts (by norm_num)
